import Mathlib

/-!
Shallow embedding of `Radios_curva.py` (QGIS processing algorithm
`ExtraerCurvasYCentroides`): circumcircle solver, curve-segment extractor,
incremental centroid clusterer and curve-record assembler, together with
theorems checking the specification's claims against this embedding.

Floating-point doubles are modelled as exact reals; `math.sqrt` is
`Real.sqrt`.  The `try/except` in `circle_radius` is modelled by the two
conditions under which the body raises: `math.sqrt` raises `ValueError`
exactly when its argument is negative, and the division raises
`ZeroDivisionError` exactly when `area = 0`.
-/

namespace RadiosCurva

/-- A 2-D point (models `QgsPointXY`, which stores `x` and `y` doubles). -/
structure Pt where
  x : ℝ
  y : ℝ

/-- Squared Euclidean distance (helper for stating algebraic lemmas). -/
def sqDist (p q : Pt) : ℝ := (p.x - q.x) ^ 2 + (p.y - q.y) ^ 2

/-- Method `QgsPointXY.distance`: Euclidean distance between two points
(collaborator method used by the source at lines 133-135, 199 and 227). -/
noncomputable def distance (p q : Pt) : ℝ := Real.sqrt (sqDist p q)

/-- Twice the signed area of the triangle `p1 p2 p3`; this is exactly `d / 2`
for the determinant `d` computed by `circle_center` (line 156). -/
def cross (p1 p2 p3 : Pt) : ℝ :=
  p1.x * (p2.y - p3.y) + p2.x * (p3.y - p1.y) + p3.x * (p1.y - p2.y)

/-- The argument `s·(s−a)·(s−b)·(s−c)` passed to `math.sqrt` inside
`circle_radius` (line 138 of the source). -/
noncomputable def heronArg (p1 p2 p3 : Pt) : ℝ :=
  let a := distance p1 p2
  let b := distance p2 p3
  let c := distance p3 p1
  let s := (a + b + c) / 2
  s * (s - a) * (s - b) * (s - c)

/-- Function `circle_radius` (source lines 123-142).  The `try` body raises exactly
when the Heron square-root argument is negative (`ValueError` from
`math.sqrt`) or the computed area is zero (`ZeroDivisionError` from the
division); the bare `except` turns either into `None`. -/
noncomputable def circle_radius (p1 p2 p3 : Pt) : Option ℝ :=
  if heronArg p1 p2 p3 < 0 then none
  else if Real.sqrt (heronArg p1 p2 p3) = 0 then none
  else some (distance p1 p2 * distance p2 p3 * distance p3 p1 /
    (4 * Real.sqrt (heronArg p1 p2 p3)))

/-- Numerator of `ux` in `circle_center` (source lines 159-161). -/
def centerNumX (p1 p2 p3 : Pt) : ℝ :=
  (p1.x ^ 2 + p1.y ^ 2) * (p2.y - p3.y) +
  (p2.x ^ 2 + p2.y ^ 2) * (p3.y - p1.y) +
  (p3.x ^ 2 + p3.y ^ 2) * (p1.y - p2.y)

/-- Numerator of `uy` in `circle_center` (source lines 162-164). -/
def centerNumY (p1 p2 p3 : Pt) : ℝ :=
  (p1.x ^ 2 + p1.y ^ 2) * (p3.x - p2.x) +
  (p2.x ^ 2 + p2.y ^ 2) * (p1.x - p3.x) +
  (p3.x ^ 2 + p3.y ^ 2) * (p2.x - p1.x)

/-- Function `circle_center` (source lines 144-165): circumcenter by the standard
determinant formulas, returning `None` when `|d| < 1e-9`.  The determinant
`d = 2·(ax·(by−cy) + bx·(cy−ay) + cx·(ay−by))` of line 156 is `2 * cross`. -/
noncomputable def circle_center (p1 p2 p3 : Pt) : Option Pt :=
  let d := 2 * cross p1 p2 p3
  if |d| < 1 / 10 ^ 9 then none
  else some ⟨centerNumX p1 p2 p3 / d, centerNumY p1 p2 p3 / d⟩

/-- An accepted curve segment (the dict appended at source lines 208-213). -/
structure Segment where
  geom : List Pt
  radio : ℝ
  long : ℝ
  centro : Option Pt

/-- One triplet evaluation of the extraction loop (source lines 197-213):
spacing filter (`continue` when an adjacent distance is below `md`), radius
computation, the `if r and rmin < r < rmax` test (Python truthiness: `r` must
be neither `None` nor `0.0`), and construction of the segment dict.  The
polyline length of `[p1, p2, p3]` is the sum of the two edge lengths. -/
noncomputable def tripletSegment (md rmin rmax : ℝ) (incluirCtr : Bool)
    (p1 p2 p3 : Pt) : Option Segment :=
  if distance p1 p2 < md ∨ distance p2 p3 < md then none
  else
    match circle_radius p1 p2 p3 with
    | none => none
    | some r =>
      if r ≠ 0 ∧ rmin < r ∧ r < rmax then
        some { geom := [p1, p2, p3], radio := r,
               long := distance p1 p2 + distance p2 p3,
               centro := if incluirCtr then circle_center p1 p2 p3 else none }
      else none

/-- The consecutive overlapping windows `[j, j+1, j+2]` walked by the loop
`for j in range(len(line) - 2)` at source line 196. -/
def triplets {α : Type} : List α → List (α × α × α)
  | a :: b :: c :: rest => (a, b, c) :: triplets (b :: c :: rest)
  | _ => []

/-- Extraction over one polyline part (source lines 196-213). -/
noncomputable def extractPart (md rmin rmax : ℝ) (incluirCtr : Bool)
    (line : List Pt) : List Segment :=
  (triplets line).filterMap fun t =>
    tripletSegment md rmin rmax incluirCtr t.1 t.2.1 t.2.2

/-- Extraction over all parts of one feature (`for line in parts`, source
line 194); each part is processed independently. -/
noncomputable def extractFeature (md rmin rmax : ℝ) (incluirCtr : Bool) :
    List (List Pt) → List Segment
  | [] => []
  | line :: rest =>
    extractPart md rmin rmax incluirCtr line ++
      extractFeature md rmin rmax incluirCtr rest

/-- The feature loop with its cancellation check (source lines 189-214): the
i-th densified feature is processed only when the cancellation signal polled
at its boundary is false; a true poll breaks out of the loop. -/
noncomputable def extractSegments (md rmin rmax : ℝ) (incluirCtr : Bool)
    (cancel : ℕ → Bool) : ℕ → List (List (List Pt)) → List Segment
  | _, [] => []
  | i, f :: fs =>
    if cancel i then []
    else extractFeature md rmin rmax incluirCtr f ++
      extractSegments md rmin rmax incluirCtr cancel (i + 1) fs

/-- A cancellation signal that fires from the second feature on. -/
def demoCancel (i : ℕ) : Bool := decide (1 ≤ i)

/-- A cluster accumulator (the dict created at source lines 239-243). -/
structure Cluster where
  centroid : Pt
  indices : List ℕ
  sum_r : ℝ

/-- State of the clustering loop: `mapa_cluster` as the ordered list of
assignment writes, and the cluster list (source lines 217-218). -/
structure ClState where
  mapa : List (ℕ × ℕ)
  clusters : List Cluster

/-- The inner scan (source lines 225-236): index of the first cluster, in
creation order, whose current centroid lies within `D` of `pt`. -/
noncomputable def findCluster (D : ℝ) (pt : Pt) : List Cluster → Option ℕ
  | [] => none
  | cl :: rest =>
    if distance pt cl.centroid ≤ D then some 0
    else (findCluster D pt rest).map (· + 1)

/-- Expression `segmentos[k]['centro']` as read by the centroid recomputation at source
lines 231-232.  The Python indexes unconditionally; on every reachable state
all member indices are valid and have centers, so the default is never
reached there. -/
noncomputable def centroOf (segs : List Segment) (k : ℕ) : Pt :=
  ((segs[k]?).bind Segment.centro).getD ⟨0, 0⟩

/-- In-place update of the `n`-th list element (the dict `cl` is mutated in
place at source lines 228-233). -/
def modifyAt {α : Type} (f : α → α) : ℕ → List α → List α
  | _, [] => []
  | 0, a :: as => f a :: as
  | n + 1, a :: as => a :: modifyAt f n as

/-- Body of the assignment branch (source lines 228-233): append the member
index, add the radius, and recompute the centroid as the mean of the centers
of all current members. -/
noncomputable def updateCluster (segs : List Segment) (idx : ℕ) (r : ℝ)
    (cl : Cluster) : Cluster :=
  let idxs := cl.indices ++ [idx]
  let xs := idxs.map fun k => (centroOf segs k).x
  let ys := idxs.map fun k => (centroOf segs k).y
  { centroid := ⟨xs.sum / (xs.length : ℝ), ys.sum / (ys.length : ℝ)⟩,
    indices := idxs,
    sum_r := cl.sum_r + r }

/-- One iteration of the clustering loop (source lines 220-244): skip
center-less segments, assign to the first cluster in range, else create a
new singleton cluster; either way record the write to `mapa_cluster`. -/
noncomputable def clusterStep (segs : List Segment) (D : ℝ) (st : ClState)
    (idx : ℕ) (seg : Segment) : ClState :=
  match seg.centro with
  | none => st
  | some pt =>
    match findCluster D pt st.clusters with
    | some cid =>
      { mapa := st.mapa ++ [(idx, cid)],
        clusters := modifyAt (updateCluster segs idx seg.radio) cid st.clusters }
    | none =>
      { mapa := st.mapa ++ [(idx, st.clusters.length)],
        clusters := st.clusters ++
          [{ centroid := pt, indices := [idx], sum_r := seg.radio }] }

/-- Loop `for idx, seg in enumerate(segmentos)` (source line 220). -/
noncomputable def clusterLoop (segs : List Segment) (D : ℝ) :
    ClState → ℕ → List Segment → ClState
  | st, _, [] => st
  | st, idx, seg :: rest =>
    clusterLoop segs D (clusterStep segs D st idx seg) (idx + 1) rest

/-- Phase 4 (source lines 216-244): clustering runs only when the centers
layer was requested; otherwise `mapa_cluster` and `clusters` stay empty. -/
noncomputable def runClustering (incluirCtr : Bool) (D : ℝ)
    (segs : List Segment) : ClState :=
  if incluirCtr then clusterLoop segs D ⟨[], []⟩ 0 segs else ⟨[], []⟩

/-- The invariant claimed for the clusterer: every cluster has a non-empty
member list whose indices point at segments with centers, and its centroid
is the arithmetic mean of those centers (as recomputed from `segmentos`). -/
def centroidInv (segs : List Segment) (st : ClState) : Prop :=
  ∀ cl ∈ st.clusters,
    cl.indices ≠ [] ∧
    (∀ k ∈ cl.indices, ∃ s, segs[k]? = some s ∧ s.centro ≠ none) ∧
    cl.centroid.x =
      ((cl.indices.map fun k => (centroOf segs k).x).sum) / (cl.indices.length : ℝ) ∧
    cl.centroid.y =
      ((cl.indices.map fun k => (centroOf segs k).y).sum) / (cl.indices.length : ℝ)

/-- Lookup `mapa_cluster.get(idx, -1)` (source line 261): Python dict semantics — the
last write for a key wins; keys never written are absent. -/
def dictGet : List (ℕ × ℕ) → ℕ → Option ℕ
  | [], _ => none
  | e :: rest, k =>
    match dictGet rest k with
    | some v => some v
    | none => if e.1 = k then some e.2 else none

/-- One output record of the curves layer (source lines 258-263). -/
structure CurveRec where
  idCurva : ℕ
  idCentroide : ℤ
  radio : ℝ
  longitud : ℝ

/-- The attributes written for segment `idx` (source lines 260-263):
`ID_Centroide` is the assigned cluster id, or −1 when the dict holds no
entry for `idx`. -/
noncomputable def curveRec (mapa : List (ℕ × ℕ)) (idx : ℕ) (seg : Segment) :
    CurveRec :=
  { idCurva := idx,
    idCentroide :=
      match dictGet mapa idx with
      | some cid => (cid : ℤ)
      | none => -1,
    radio := seg.radio,
    longitud := seg.long }

/-- The population loop of the curves layer,
`for idx, seg in enumerate(segmentos)` (source lines 257-264). -/
noncomputable def curveRecords (mapa : List (ℕ × ℕ)) :
    ℕ → List Segment → List CurveRec
  | _, [] => []
  | idx, seg :: rest => curveRec mapa idx seg :: curveRecords mapa (idx + 1) rest

/-- Keys written to `mapa_cluster` so far are indices of already-scanned
segments that do have centers. -/
def mapaInv (segs : List Segment) (n : ℕ) (st : ClState) : Prop :=
  ∀ e ∈ st.mapa, e.1 < n ∧ ∃ s, segs[e.1]? = some s ∧ s.centro ≠ none

lemma sqDist_nonneg (p q : Pt) : 0 ≤ sqDist p q := by
  unfold sqDist; positivity

lemma distance_nonneg (p q : Pt) : 0 ≤ distance p q := Real.sqrt_nonneg _

lemma distance_sq (p q : Pt) : distance p q ^ 2 = sqDist p q :=
  Real.sq_sqrt (sqDist_nonneg p q)

/-- Heron's expression in terms of squared side lengths. -/
lemma heronArg_eq (p1 p2 p3 : Pt) :
    heronArg p1 p2 p3 =
      (2 * sqDist p1 p2 * sqDist p2 p3 + 2 * sqDist p2 p3 * sqDist p3 p1 +
        2 * sqDist p3 p1 * sqDist p1 p2 -
        sqDist p1 p2 ^ 2 - sqDist p2 p3 ^ 2 - sqDist p3 p1 ^ 2) / 16 := by
  have ha := distance_sq p1 p2
  have hb := distance_sq p2 p3
  have hc := distance_sq p3 p1
  unfold heronArg
  rw [← ha, ← hb, ← hc]
  ring

/-- The Heron argument is a quarter of the squared cross product: in exact
arithmetic it is never negative, and it vanishes exactly on collinear
(including coincident) triplets. -/
lemma heronArg_eq_cross (p1 p2 p3 : Pt) :
    heronArg p1 p2 p3 = cross p1 p2 p3 ^ 2 / 4 := by
  rw [heronArg_eq]
  unfold sqDist cross
  ring

lemma heronArg_nonneg (p1 p2 p3 : Pt) : 0 ≤ heronArg p1 p2 p3 := by
  rw [heronArg_eq_cross]; positivity

lemma heronArg_pos_of_cross_ne (p1 p2 p3 : Pt) (h : cross p1 p2 p3 ≠ 0) :
    0 < heronArg p1 p2 p3 := by
  rw [heronArg_eq_cross]; positivity

/-- If two of the three points coincide, the cross product vanishes. -/
lemma cross_eq_zero_of_eq {p1 p2 p3 : Pt}
    (h : p1 = p2 ∨ p2 = p3 ∨ p1 = p3) : cross p1 p2 p3 = 0 := by
  rcases h with h | h | h <;> subst h <;> unfold cross <;> ring

lemma sqDist_eq_zero {p q : Pt} (h : sqDist p q = 0) : p = q := by
  unfold sqDist at h
  have hx : (p.x - q.x) ^ 2 = 0 := by
    nlinarith [sq_nonneg (p.x - q.x), sq_nonneg (p.y - q.y)]
  have hy : (p.y - q.y) ^ 2 = 0 := by
    nlinarith [sq_nonneg (p.x - q.x), sq_nonneg (p.y - q.y)]
  cases p; cases q
  simp only [Pt.mk.injEq]
  constructor <;> [nlinarith [hx]; nlinarith [hy]]

lemma sqDist_pos_of_cross_ne₁ (p1 p2 p3 : Pt) (h : cross p1 p2 p3 ≠ 0) :
    0 < sqDist p1 p2 := by
  rcases lt_or_eq_of_le (sqDist_nonneg p1 p2) with hp | hp
  · exact hp
  · exact absurd (cross_eq_zero_of_eq (Or.inl (sqDist_eq_zero hp.symm))) h

lemma sqDist_pos_of_cross_ne₂ (p1 p2 p3 : Pt) (h : cross p1 p2 p3 ≠ 0) :
    0 < sqDist p2 p3 := by
  rcases lt_or_eq_of_le (sqDist_nonneg p2 p3) with hp | hp
  · exact hp
  · exact absurd (cross_eq_zero_of_eq (Or.inr (Or.inl (sqDist_eq_zero hp.symm)))) h

lemma sqDist_pos_of_cross_ne₃ (p1 p2 p3 : Pt) (h : cross p1 p2 p3 ≠ 0) :
    0 < sqDist p3 p1 := by
  rcases lt_or_eq_of_le (sqDist_nonneg p3 p1) with hp | hp
  · exact hp
  · exact absurd (cross_eq_zero_of_eq (Or.inr (Or.inr (sqDist_eq_zero hp.symm).symm))) h

lemma distance_pos_of_cross_ne₁ (p1 p2 p3 : Pt) (h : cross p1 p2 p3 ≠ 0) :
    0 < distance p1 p2 :=
  Real.sqrt_pos.mpr (sqDist_pos_of_cross_ne₁ p1 p2 p3 h)

lemma distance_pos_of_cross_ne₂ (p1 p2 p3 : Pt) (h : cross p1 p2 p3 ≠ 0) :
    0 < distance p2 p3 :=
  Real.sqrt_pos.mpr (sqDist_pos_of_cross_ne₂ p1 p2 p3 h)

lemma distance_pos_of_cross_ne₃ (p1 p2 p3 : Pt) (h : cross p1 p2 p3 ≠ 0) :
    0 < distance p3 p1 :=
  Real.sqrt_pos.mpr (sqDist_pos_of_cross_ne₃ p1 p2 p3 h)

/-- Value of `circle_radius` on a non-degenerate triplet. -/
lemma circle_radius_of_cross_ne (p1 p2 p3 : Pt) (h : cross p1 p2 p3 ≠ 0) :
    circle_radius p1 p2 p3 =
      some (distance p1 p2 * distance p2 p3 * distance p3 p1 /
        (4 * Real.sqrt (heronArg p1 p2 p3))) := by
  have hpos := heronArg_pos_of_cross_ne p1 p2 p3 h
  unfold circle_radius
  rw [if_neg (not_lt.mpr hpos.le), if_neg]
  exact ne_of_gt (Real.sqrt_pos.mpr hpos)

lemma circle_radius_pos_of_some (p1 p2 p3 : Pt) (r : ℝ)
    (h : circle_radius p1 p2 p3 = some r) : 0 < r := by
  unfold circle_radius at h
  by_cases h1 : heronArg p1 p2 p3 < 0
  · rw [if_pos h1] at h; exact absurd h (by simp)
  rw [if_neg h1] at h
  by_cases h2 : Real.sqrt (heronArg p1 p2 p3) = 0
  · rw [if_pos h2] at h; exact absurd h (by simp)
  rw [if_neg h2] at h
  have hherpos : 0 < heronArg p1 p2 p3 := by
    rcases lt_or_eq_of_le (heronArg_nonneg p1 p2 p3) with hlt | heq
    · exact hlt
    · exact absurd (by rw [← heq, Real.sqrt_zero]) h2
  have hcross : cross p1 p2 p3 ≠ 0 := by
    intro hc
    rw [heronArg_eq_cross, hc] at hherpos
    norm_num at hherpos
  have ha := distance_pos_of_cross_ne₁ p1 p2 p3 hcross
  have hb := distance_pos_of_cross_ne₂ p1 p2 p3 hcross
  have hc := distance_pos_of_cross_ne₃ p1 p2 p3 hcross
  have hs : 0 < Real.sqrt (heronArg p1 p2 p3) := Real.sqrt_pos.mpr hherpos
  have : r = distance p1 p2 * distance p2 p3 * distance p3 p1 /
      (4 * Real.sqrt (heronArg p1 p2 p3)) := by
    injection h with h'; exact h'.symm
  rw [this]
  positivity

/-- The circumcenter numerators satisfy, identically in the six coordinates,
`(Nx − pᵢ.x·d)² + (Ny − pᵢ.y·d)² = A·B·C` for each of the three points,
where `A`, `B`, `C` are the squared side lengths and `d = 2·cross`. -/
lemma center_ident (p1 p2 p3 : Pt) :
    ((centerNumX p1 p2 p3 - p1.x * (2 * cross p1 p2 p3)) ^ 2 +
      (centerNumY p1 p2 p3 - p1.y * (2 * cross p1 p2 p3)) ^ 2 =
      sqDist p1 p2 * sqDist p2 p3 * sqDist p3 p1) ∧
    ((centerNumX p1 p2 p3 - p2.x * (2 * cross p1 p2 p3)) ^ 2 +
      (centerNumY p1 p2 p3 - p2.y * (2 * cross p1 p2 p3)) ^ 2 =
      sqDist p1 p2 * sqDist p2 p3 * sqDist p3 p1) ∧
    ((centerNumX p1 p2 p3 - p3.x * (2 * cross p1 p2 p3)) ^ 2 +
      (centerNumY p1 p2 p3 - p3.y * (2 * cross p1 p2 p3)) ^ 2 =
      sqDist p1 p2 * sqDist p2 p3 * sqDist p3 p1) := by
  unfold centerNumX centerNumY cross sqDist
  refine ⟨by ring, by ring, by ring⟩

lemma sqDist_div_pt (nx ny dd : ℝ) (p : Pt) (hd : dd ≠ 0) :
    sqDist ⟨nx / dd, ny / dd⟩ p = ((nx - p.x * dd) ^ 2 + (ny - p.y * dd) ^ 2) / dd ^ 2 := by
  unfold sqDist
  field_simp
  ring

/-- The square of the radius returned by `circle_radius` on a non-degenerate
triplet is `A·B·C / d²`. -/
lemma radius_sq_eq (p1 p2 p3 : Pt) :
    (distance p1 p2 * distance p2 p3 * distance p3 p1 /
        (4 * Real.sqrt (heronArg p1 p2 p3))) ^ 2 =
      sqDist p1 p2 * sqDist p2 p3 * sqDist p3 p1 / (2 * cross p1 p2 p3) ^ 2 := by
  rw [div_pow, mul_pow, mul_pow, distance_sq, distance_sq, distance_sq, mul_pow,
    Real.sq_sqrt (heronArg_nonneg p1 p2 p3), heronArg_eq_cross]
  rw [show (4 : ℝ) ^ 2 * (cross p1 p2 p3 ^ 2 / 4) = (2 * cross p1 p2 p3) ^ 2 by ring]

/-- Whenever `circle_center` yields a point on a non-degenerate triplet, that
point's squared distance to each of the three inputs equals `A·B·C / d²`. -/
lemma center_sqDist_eq (p1 p2 p3 u : Pt) (h : cross p1 p2 p3 ≠ 0)
    (hu : circle_center p1 p2 p3 = some u) :
    sqDist u p1 = sqDist p1 p2 * sqDist p2 p3 * sqDist p3 p1 / (2 * cross p1 p2 p3) ^ 2 ∧
    sqDist u p2 = sqDist p1 p2 * sqDist p2 p3 * sqDist p3 p1 / (2 * cross p1 p2 p3) ^ 2 ∧
    sqDist u p3 = sqDist p1 p2 * sqDist p2 p3 * sqDist p3 p1 / (2 * cross p1 p2 p3) ^ 2 := by
  have hd : (2 * cross p1 p2 p3) ≠ 0 := mul_ne_zero two_ne_zero h
  simp only [circle_center] at hu
  split at hu
  · exact absurd hu (by simp)
  · have hu' : (⟨centerNumX p1 p2 p3 / (2 * cross p1 p2 p3),
        centerNumY p1 p2 p3 / (2 * cross p1 p2 p3)⟩ : Pt) = u := by
      injection hu
    subst hu'
    obtain ⟨h1, h2, h3⟩ := center_ident p1 p2 p3
    refine ⟨?_, ?_, ?_⟩
    · rw [sqDist_div_pt _ _ _ _ hd, h1]
    · rw [sqDist_div_pt _ _ _ _ hd, h2]
    · rw [sqDist_div_pt _ _ _ _ hd, h3]

/-- C1 (amended): for every triplet of distinct, non-collinear points,
`circle_radius` returns a finite positive radius; and whenever `circle_center`
also returns a point (i.e. the determinant clears the `1e-9` tolerance), that
point's distance to each of the three input points equals that radius. -/
theorem claim1_circumcircle_correct (p1 p2 p3 : Pt) (h : cross p1 p2 p3 ≠ 0) :
    ∃ r, circle_radius p1 p2 p3 = some r ∧ 0 < r ∧
      ∀ u, circle_center p1 p2 p3 = some u →
        distance u p1 = r ∧ distance u p2 = r ∧ distance u p3 = r := by
  have hcr := circle_radius_of_cross_ne p1 p2 p3 h
  have hrpos := circle_radius_pos_of_some p1 p2 p3 _ hcr
  refine ⟨_, hcr, hrpos, ?_⟩
  intro u hu
  obtain ⟨h1, h2, h3⟩ := center_sqDist_eq p1 p2 p3 u h hu
  refine ⟨?_, ?_, ?_⟩
  · calc distance u p1 = Real.sqrt (sqDist u p1) := rfl
      _ = Real.sqrt ((distance p1 p2 * distance p2 p3 * distance p3 p1 /
            (4 * Real.sqrt (heronArg p1 p2 p3))) ^ 2) := by rw [h1, ← radius_sq_eq]
      _ = _ := Real.sqrt_sq hrpos.le
  · calc distance u p2 = Real.sqrt (sqDist u p2) := rfl
      _ = Real.sqrt ((distance p1 p2 * distance p2 p3 * distance p3 p1 /
            (4 * Real.sqrt (heronArg p1 p2 p3))) ^ 2) := by rw [h2, ← radius_sq_eq]
      _ = _ := Real.sqrt_sq hrpos.le
  · calc distance u p3 = Real.sqrt (sqDist u p3) := rfl
      _ = Real.sqrt ((distance p1 p2 * distance p2 p3 * distance p3 p1 /
            (4 * Real.sqrt (heronArg p1 p2 p3))) ^ 2) := by rw [h3, ← radius_sq_eq]
      _ = _ := Real.sqrt_sq hrpos.le

/-- C1 counterexample: the points (0,0), (1,0), (2,10⁻¹⁰) are pairwise
distinct and non-collinear, yet `circle_center` signals degenerate because
its determinant `d = 2·10⁻¹⁰` falls below the fixed `1e-9` tolerance; so the
claim as stated (the center is returned, with distances equal to the radius,
for every distinct non-collinear triplet) fails on this input. -/
theorem claim1_counterexample :
    (⟨0, 0⟩ : Pt) ≠ ⟨1, 0⟩ ∧ (⟨1, 0⟩ : Pt) ≠ ⟨2, 1 / 10 ^ 10⟩ ∧
    (⟨0, 0⟩ : Pt) ≠ ⟨2, 1 / 10 ^ 10⟩ ∧
    cross ⟨0, 0⟩ ⟨1, 0⟩ ⟨2, 1 / 10 ^ 10⟩ ≠ 0 ∧
    circle_center ⟨0, 0⟩ ⟨1, 0⟩ ⟨2, 1 / 10 ^ 10⟩ = none := by
  refine ⟨?_, ?_, ?_, ?_, ?_⟩
  · norm_num [Pt.mk.injEq]
  · norm_num [Pt.mk.injEq]
  · norm_num [Pt.mk.injEq]
  · norm_num [cross]
  · simp only [circle_center]
    rw [show cross ⟨0, 0⟩ ⟨1, 0⟩ ⟨2, 1 / 10 ^ 10⟩ = 1 / 10 ^ 10 by norm_num [cross]]
    norm_num
    rw [abs_of_pos (by norm_num)]
    norm_num

/-- C1 witness: the triplet (0,0), (1,1), (2,0) is non-degenerate, so the
amended claim applies to it. -/
theorem claim1_witness :
    cross ⟨0, 0⟩ ⟨1, 1⟩ ⟨2, 0⟩ ≠ 0 ∧
    (∃ r, circle_radius ⟨0, 0⟩ ⟨1, 1⟩ ⟨2, 0⟩ = some r ∧ 0 < r ∧
      ∀ u, circle_center ⟨0, 0⟩ ⟨1, 1⟩ ⟨2, 0⟩ = some u →
        distance u ⟨0, 0⟩ = r ∧ distance u ⟨1, 1⟩ = r ∧ distance u ⟨2, 0⟩ = r) :=
  ⟨by norm_num [cross], claim1_circumcircle_correct _ _ _ (by norm_num [cross])⟩

/-- C4: when the Heron square-root argument is negative, or the computed area
(its square root) is zero, `circle_radius` returns the no-radius value `none`;
and whenever it does return a value, that value is a genuine positive real —
never an exception, an infinity or a NaN. -/
theorem claim4_degenerate_signalling (p1 p2 p3 : Pt) :
    (heronArg p1 p2 p3 < 0 ∨ Real.sqrt (heronArg p1 p2 p3) = 0 →
      circle_radius p1 p2 p3 = none) ∧
    (∀ r, circle_radius p1 p2 p3 = some r → 0 < r) := by
  constructor
  · intro hdeg
    unfold circle_radius
    by_cases hneg : heronArg p1 p2 p3 < 0
    · rw [if_pos hneg]
    · rw [if_neg hneg, if_pos]
      rcases hdeg with hd | hd
      · exact absurd hd hneg
      · exact hd
  · exact fun r hr => circle_radius_pos_of_some p1 p2 p3 r hr

/-- C4 witness: the coincident triplet (0,0), (0,0), (1,1) has zero area and
is rejected with `none`. -/
theorem claim4_witness :
    Real.sqrt (heronArg ⟨0, 0⟩ ⟨0, 0⟩ ⟨1, 1⟩) = 0 ∧
    circle_radius ⟨0, 0⟩ ⟨0, 0⟩ ⟨1, 1⟩ = none := by
  have h0 : Real.sqrt (heronArg ⟨0, 0⟩ ⟨0, 0⟩ ⟨1, 1⟩) = 0 := by
    rw [heronArg_eq_cross]
    norm_num [cross, Real.sqrt_zero]
  exact ⟨h0, (claim4_degenerate_signalling _ _ _).1 (Or.inr h0)⟩

/-- C8: on an exactly collinear triplet both `circle_radius` and
`circle_center` signal degenerate (`none`). -/
theorem claim8_collinear_degenerate (p1 p2 p3 : Pt) (h : cross p1 p2 p3 = 0) :
    circle_radius p1 p2 p3 = none ∧ circle_center p1 p2 p3 = none := by
  have hH : heronArg p1 p2 p3 = 0 := by
    rw [heronArg_eq_cross, h]; norm_num
  constructor
  · unfold circle_radius
    rw [if_neg (by rw [hH]; norm_num), if_pos (by rw [hH, Real.sqrt_zero])]
  · simp only [circle_center]
    rw [h]
    norm_num

/-- C8 witness: the collinear triplet (0,0), (1,0), (2,0) named by the spec. -/
theorem claim8_witness :
    cross ⟨0, 0⟩ ⟨1, 0⟩ ⟨2, 0⟩ = 0 ∧
    circle_radius ⟨0, 0⟩ ⟨1, 0⟩ ⟨2, 0⟩ = none ∧
    circle_center ⟨0, 0⟩ ⟨1, 0⟩ ⟨2, 0⟩ = none := by
  have hc : cross ⟨0, 0⟩ ⟨1, 0⟩ ⟨2, 0⟩ = 0 := by norm_num [cross]
  obtain ⟨h1, h2⟩ := claim8_collinear_degenerate _ _ _ hc
  exact ⟨hc, h1, h2⟩

/-- C7: a triplet with an adjacent-point distance strictly below the minimum
vertex spacing is never accepted, whatever its radius would be. -/
theorem claim7_spacing_filter (md rmin rmax : ℝ) (ctr : Bool) (p1 p2 p3 : Pt)
    (h : distance p1 p2 < md ∨ distance p2 p3 < md) :
    tripletSegment md rmin rmax ctr p1 p2 p3 = none := by
  unfold tripletSegment
  rw [if_pos h]

/-- C7 witness: a duplicated vertex at spacing threshold `0.5` is rejected. -/
theorem claim7_witness :
    (distance ⟨0, 0⟩ ⟨0, 0⟩ < (1 / 2 : ℝ) ∨ distance ⟨0, 0⟩ ⟨1, 0⟩ < (1 / 2 : ℝ)) ∧
    tripletSegment (1 / 2) 2 50 false ⟨0, 0⟩ ⟨0, 0⟩ ⟨1, 0⟩ = none := by
  have h : distance (⟨0, 0⟩ : Pt) ⟨0, 0⟩ < (1 / 2 : ℝ) := by
    unfold distance sqDist
    norm_num [Real.sqrt_zero]
  exact ⟨Or.inl h, claim7_spacing_filter _ _ _ _ _ _ _ (Or.inl h)⟩

/-- C5: the radius range filter is strict on both bounds: a segment is built
only when `rmin < r < rmax`, and a radius exactly equal to either bound is
rejected. -/
theorem claim5_strict_range_filter (md rmin rmax : ℝ) (ctr : Bool)
    (p1 p2 p3 : Pt) (r : ℝ) (hr : circle_radius p1 p2 p3 = some r) :
    ((r = rmin ∨ r = rmax) → tripletSegment md rmin rmax ctr p1 p2 p3 = none) ∧
    (∀ seg, tripletSegment md rmin rmax ctr p1 p2 p3 = some seg →
      seg.radio = r ∧ rmin < r ∧ r < rmax) := by
  constructor
  · intro hb
    unfold tripletSegment
    by_cases hsp : distance p1 p2 < md ∨ distance p2 p3 < md
    · rw [if_pos hsp]
    · rw [if_neg hsp]
      simp only [hr]
      rw [if_neg]
      rintro ⟨-, h1, h2⟩
      rcases hb with hb | hb
      · exact lt_irrefl _ (hb ▸ h1)
      · exact lt_irrefl _ (hb ▸ h2)
  · intro seg hseg
    unfold tripletSegment at hseg
    by_cases hsp : distance p1 p2 < md ∨ distance p2 p3 < md
    · rw [if_pos hsp] at hseg
      exact absurd hseg (by simp)
    · rw [if_neg hsp] at hseg
      simp only [hr] at hseg
      by_cases hcond : r ≠ 0 ∧ rmin < r ∧ r < rmax
      · rw [if_pos hcond] at hseg
        injection hseg with hseg'
        subst hseg'
        exact ⟨rfl, hcond.2.1, hcond.2.2⟩
      · rw [if_neg hcond] at hseg
        exact absurd hseg (by simp)

/-- The circumradius of (0,0), (1,1), (2,0) is exactly 1. -/
lemma circle_radius_demo : circle_radius ⟨0, 0⟩ ⟨1, 1⟩ ⟨2, 0⟩ = some 1 := by
  have hcross : cross ⟨0, 0⟩ ⟨1, 1⟩ ⟨2, 0⟩ = -2 := by norm_num [cross]
  have hH : heronArg ⟨0, 0⟩ ⟨1, 1⟩ ⟨2, 0⟩ = 1 := by
    rw [heronArg_eq_cross, hcross]; norm_num
  have ha : distance ⟨0, 0⟩ ⟨1, 1⟩ = Real.sqrt 2 := by
    unfold distance sqDist; norm_num
  have hb : distance ⟨1, 1⟩ ⟨2, 0⟩ = Real.sqrt 2 := by
    unfold distance sqDist; norm_num
  have hc : distance ⟨2, 0⟩ ⟨0, 0⟩ = 2 := by
    unfold distance sqDist
    rw [show ((2 : ℝ) - 0) ^ 2 + (0 - 0) ^ 2 = 2 ^ 2 by norm_num,
      Real.sqrt_sq (by norm_num)]
  unfold circle_radius
  rw [hH, ha, hb, hc, Real.sqrt_one]
  norm_num [Real.mul_self_sqrt]

/-- C5 witness: the triplet (0,0), (1,1), (2,0) has circumradius exactly 1;
with `minRadius = 1` it is rejected (boundary exclusive). -/
theorem claim5_witness :
    circle_radius ⟨0, 0⟩ ⟨1, 1⟩ ⟨2, 0⟩ = some 1 ∧
    tripletSegment 0 1 50 false ⟨0, 0⟩ ⟨1, 1⟩ ⟨2, 0⟩ = none :=
  ⟨circle_radius_demo,
    (claim5_strict_range_filter 0 1 50 false _ _ _ 1 circle_radius_demo).1
      (Or.inl rfl)⟩

lemma triplets_length {α : Type} : ∀ l : List α, (triplets l).length = l.length - 2
  | [] => rfl
  | [_] => rfl
  | [_, _] => rfl
  | a :: b :: c :: rest => by
    simp only [triplets, List.length_cons]
    rw [triplets_length (b :: c :: rest)]
    simp only [List.length_cons]
    omega

lemma triplets_getElem? {α : Type} :
    ∀ (l : List α) (j : ℕ) (a b c : α), l[j]? = some a → l[j + 1]? = some b →
      l[j + 2]? = some c → (triplets l)[j]? = some (a, b, c)
  | [], j, a, _, _ => by
    intro h1 _ _
    simp at h1
  | [_], j, a, b, _ => by
    intro _ h2 _
    rcases j with _ | j <;> simp at h2
  | [_, _], j, a, b, c => by
    intro _ _ h3
    rcases j with _ | _ | j <;> simp at h3
  | x :: y :: z :: rest, 0, a, b, c => by
    intro h1 h2 h3
    simp only [List.getElem?_cons_zero, List.getElem?_cons_succ] at h1 h2 h3
    injection h1 with h1
    injection h2 with h2
    injection h3 with h3
    subst h1; subst h2; subst h3
    simp [triplets]
  | x :: y :: z :: rest, j + 1, a, b, c => by
    intro h1 h2 h3
    rw [List.getElem?_cons_succ] at h1
    rw [show j + 1 + 1 = (j + 1) + 1 from rfl, List.getElem?_cons_succ] at h2
    rw [show j + 1 + 2 = (j + 2) + 1 from rfl, List.getElem?_cons_succ] at h3
    have ih := triplets_getElem? (y :: z :: rest) j a b c h1 h2 h3
    simp only [triplets, List.getElem?_cons_succ]
    exact ih

lemma extractFeature_eq_flatten (md rmin rmax : ℝ) (ctr : Bool) :
    ∀ parts : List (List Pt),
      extractFeature md rmin rmax ctr parts =
        (parts.map (extractPart md rmin rmax ctr)).flatten
  | [] => rfl
  | p :: rest => by
    simp only [extractFeature, List.map_cons, List.flatten_cons]
    rw [extractFeature_eq_flatten md rmin rmax ctr rest]

/-- C6: a part with `L` vertices yields exactly `max(0, L−2)` evaluated
triplets — the overlapping windows `[j, j+1, j+2]` — of which at most
`max(0, L−2)` are accepted; and a feature's segments are exactly the
concatenation of its parts' segments, so no triplet spans a part boundary. -/
theorem claim6_triplet_windows (md rmin rmax : ℝ) (ctr : Bool)
    (ln : List Pt) (parts : List (List Pt)) :
    (triplets ln).length = ln.length - 2 ∧
    (extractPart md rmin rmax ctr ln).length ≤ ln.length - 2 ∧
    (∀ j (a b c : Pt), ln[j]? = some a → ln[j + 1]? = some b →
      ln[j + 2]? = some c → (triplets ln)[j]? = some (a, b, c)) ∧
    extractFeature md rmin rmax ctr parts =
      (parts.map (extractPart md rmin rmax ctr)).flatten := by
  refine ⟨triplets_length ln, ?_,
    fun j a b c h1 h2 h3 => triplets_getElem? ln j a b c h1 h2 h3,
    extractFeature_eq_flatten md rmin rmax ctr parts⟩
  calc (extractPart md rmin rmax ctr ln).length
      ≤ (triplets ln).length := List.length_filterMap_le _ _
    _ = ln.length - 2 := triplets_length ln

/-- C6 witness: a four-vertex part yields two windows, and window 1 is the
vertex triple at indices 1, 2, 3. -/
theorem claim6_witness :
    (triplets [(⟨0, 0⟩ : Pt), ⟨1, 0⟩, ⟨2, 0⟩, ⟨3, 0⟩]).length = 4 - 2 ∧
    (triplets [(⟨0, 0⟩ : Pt), ⟨1, 0⟩, ⟨2, 0⟩, ⟨3, 0⟩])[1]? =
      some (⟨1, 0⟩, ⟨2, 0⟩, ⟨3, 0⟩) :=
  ⟨(claim6_triplet_windows 0 2 50 false _ []).1,
   (claim6_triplet_windows 0 2 50 false _ []).2.2.1 1 _ _ _ rfl rfl rfl⟩

lemma extractSegments_cancel (md rmin rmax : ℝ) (ctr : Bool) (cancel : ℕ → Bool)
    (k : ℕ) (h : ∀ i, cancel i = true ↔ k ≤ i) :
    ∀ (feats : List (List (List Pt))) (n : ℕ),
      extractSegments md rmin rmax ctr cancel n feats =
        ((feats.take (k - n)).map (extractFeature md rmin rmax ctr)).flatten
  | [], n => by simp [extractSegments]
  | f :: fs, n => by
    by_cases hn : k ≤ n
    · have hc : cancel n = true := (h n).mpr hn
      have h0 : k - n = 0 := by omega
      simp [extractSegments, hc, h0]
    · have hc : cancel n = false := by
        cases hcn : cancel n
        · rfl
        · exact absurd ((h n).mp hcn) hn
      have hkn : k - n = (k - (n + 1)) + 1 := by omega
      rw [hkn]
      simp only [extractSegments, hc, Bool.false_eq_true, if_false,
        List.take_succ_cons, List.map_cons, List.flatten_cons]
      rw [extractSegments_cancel md rmin rmax ctr cancel k h fs (n + 1)]

/-- C10: when the cancellation signal becomes (and stays) true from the k-th
input-record boundary on, extraction returns exactly the segments of the
first k records, with no error. -/
theorem claim10_cancellation (md rmin rmax : ℝ) (ctr : Bool) (cancel : ℕ → Bool)
    (k : ℕ) (feats : List (List (List Pt)))
    (h : ∀ i, cancel i = true ↔ k ≤ i) :
    extractSegments md rmin rmax ctr cancel 0 feats =
      ((feats.take k).map (extractFeature md rmin rmax ctr)).flatten := by
  have hgen := extractSegments_cancel md rmin rmax ctr cancel k h feats 0
  simpa using hgen

/-- C10 witness: cancelling after the first of three records keeps exactly
the first record's segments. -/
theorem claim10_witness :
    extractSegments (1 / 2) 2 50 false demoCancel 0
        [[[⟨0, 0⟩, ⟨1, 0⟩, ⟨2, 1⟩]], [[⟨5, 5⟩]], [[⟨9, 9⟩]]] =
      (([[[(⟨0, 0⟩ : Pt), ⟨1, 0⟩, ⟨2, 1⟩]], [[⟨5, 5⟩]], [[⟨9, 9⟩]]].take 1).map
        (extractFeature (1 / 2) 2 50 false)).flatten :=
  claim10_cancellation (1 / 2) 2 50 false demoCancel 1 _
    (fun i => by simp [demoCancel])

lemma clusterStep_none (segs : List Segment) (D : ℝ) (st : ClState) (idx : ℕ)
    (seg : Segment) (h : seg.centro = none) :
    clusterStep segs D st idx seg = st := by
  unfold clusterStep
  rw [h]

lemma clusterStep_assign (segs : List Segment) (D : ℝ) (st : ClState)
    (idx : ℕ) (seg : Segment) (pt : Pt) (cid : ℕ) (h : seg.centro = some pt)
    (hf : findCluster D pt st.clusters = some cid) :
    clusterStep segs D st idx seg =
      ⟨st.mapa ++ [(idx, cid)],
       modifyAt (updateCluster segs idx seg.radio) cid st.clusters⟩ := by
  unfold clusterStep
  simp only [h, hf]

lemma clusterStep_new (segs : List Segment) (D : ℝ) (st : ClState)
    (idx : ℕ) (seg : Segment) (pt : Pt) (h : seg.centro = some pt)
    (hf : findCluster D pt st.clusters = none) :
    clusterStep segs D st idx seg =
      ⟨st.mapa ++ [(idx, st.clusters.length)],
       st.clusters ++ [{ centroid := pt, indices := [idx], sum_r := seg.radio }]⟩ := by
  unfold clusterStep
  simp only [h, hf]

lemma findCluster_eq_some_of (D : ℝ) (pt : Pt) :
    ∀ (cls : List Cluster) (cid : ℕ) (cl : Cluster), cls[cid]? = some cl →
      distance pt cl.centroid ≤ D →
      (∀ j (cl' : Cluster), j < cid → cls[j]? = some cl' →
        D < distance pt cl'.centroid) →
      findCluster D pt cls = some cid
  | [], cid, cl => by
    intro h _ _
    simp at h
  | c :: rest, 0, cl => by
    intro h hle _
    simp only [List.getElem?_cons_zero] at h
    injection h with h
    subst h
    unfold findCluster
    rw [if_pos hle]
  | c :: rest, cid + 1, cl => by
    intro h hle hfirst
    rw [List.getElem?_cons_succ] at h
    have hc : D < distance pt c.centroid := hfirst 0 c (Nat.succ_pos cid) (by simp)
    have ih := findCluster_eq_some_of D pt rest cid cl h hle
      (fun j cl' hj hj' => hfirst (j + 1) cl' (Nat.succ_lt_succ hj)
        (by rw [List.getElem?_cons_succ]; exact hj'))
    unfold findCluster
    rw [if_neg (not_le.mpr hc), ih]
    rfl

lemma findCluster_eq_none_of (D : ℝ) (pt : Pt) :
    ∀ cls : List Cluster,
      (∀ (j : ℕ) (cl' : Cluster), cls[j]? = some cl' →
        D < distance pt cl'.centroid) →
      findCluster D pt cls = none
  | [] => fun _ => rfl
  | c :: rest => by
    intro h
    unfold findCluster
    rw [if_neg (not_le.mpr (h 0 c (by simp))),
      findCluster_eq_none_of D pt rest
        (fun j cl' hj => h (j + 1) cl' (by rw [List.getElem?_cons_succ]; exact hj))]
    rfl

/-- C2: a segment whose center is within `clusterDistance` (inclusive `≤`) of
at least one existing centroid joins the first such cluster in creation
order — later, possibly nearer clusters are never chosen — and when no
existing cluster is in range a new cluster containing only this segment is
created, mapped to the next cluster id. -/
theorem claim2_greedy_first_fit (segs : List Segment) (D : ℝ) (st : ClState)
    (idx : ℕ) (seg : Segment) (pt : Pt) (cid : ℕ) (cl : Cluster)
    (hc : seg.centro = some pt) :
    (st.clusters[cid]? = some cl → distance pt cl.centroid ≤ D →
      (∀ j (cl' : Cluster), j < cid → st.clusters[j]? = some cl' →
        D < distance pt cl'.centroid) →
      clusterStep segs D st idx seg =
        ⟨st.mapa ++ [(idx, cid)],
         modifyAt (updateCluster segs idx seg.radio) cid st.clusters⟩) ∧
    ((∀ (j : ℕ) (cl' : Cluster), st.clusters[j]? = some cl' →
        D < distance pt cl'.centroid) →
      clusterStep segs D st idx seg =
        ⟨st.mapa ++ [(idx, st.clusters.length)],
         st.clusters ++ [{ centroid := pt, indices := [idx], sum_r := seg.radio }]⟩) := by
  constructor
  · intro h1 h2 h3
    exact clusterStep_assign segs D st idx seg pt cid hc
      (findCluster_eq_some_of D pt st.clusters cid cl h1 h2 h3)
  · intro hall
    exact clusterStep_new segs D st idx seg pt hc
      (findCluster_eq_none_of D pt st.clusters hall)

/-- C2 witness: with `clusterDistance = 5`, a center at the origin joins
cluster 0 (centroid (4,0), distance 4) even though cluster 1 (centroid
(0,1), distance 1) is nearer, because cluster 0 was created first. -/
theorem claim2_witness :
    clusterStep [] 5 ⟨[], [⟨⟨4, 0⟩, [0], 1⟩, ⟨⟨0, 1⟩, [1], 1⟩]⟩ 2
        ⟨[], 1, 1, some ⟨0, 0⟩⟩ =
      ⟨[(2, 0)], modifyAt (updateCluster [] 2 1) 0
        [⟨⟨4, 0⟩, [0], 1⟩, ⟨⟨0, 1⟩, [1], 1⟩]⟩ := by
  have hd : distance ⟨0, 0⟩ ⟨4, 0⟩ ≤ (5 : ℝ) := by
    unfold distance sqDist
    rw [show ((0 : ℝ) - 4) ^ 2 + ((0 : ℝ) - 0) ^ 2 = 4 ^ 2 by norm_num,
      Real.sqrt_sq (by norm_num)]
    norm_num
  exact (claim2_greedy_first_fit [] 5 _ 2 _ ⟨0, 0⟩ 0 ⟨⟨4, 0⟩, [0], 1⟩ rfl).1
    (by simp) hd (fun j cl' hj _ => absurd hj (Nat.not_lt_zero j))

lemma mem_modifyAt {α : Type} (f : α → α) :
    ∀ (n : ℕ) (l : List α) (x : α), x ∈ modifyAt f n l →
      x ∈ l ∨ ∃ y, y ∈ l ∧ x = f y
  | _, [], x => by
    intro h
    simp [modifyAt] at h
  | 0, a :: as, x => by
    intro h
    simp only [modifyAt, List.mem_cons] at h
    rcases h with h | h
    · exact Or.inr ⟨a, List.mem_cons_self a as, h⟩
    · exact Or.inl (List.mem_cons_of_mem a h)
  | n + 1, a :: as, x => by
    intro h
    simp only [modifyAt, List.mem_cons] at h
    rcases h with h | h
    · exact Or.inl (h ▸ List.mem_cons_self a as)
    · rcases mem_modifyAt f n as x h with h' | ⟨y, hy, hxy⟩
      · exact Or.inl (List.mem_cons_of_mem a h')
      · exact Or.inr ⟨y, List.mem_cons_of_mem a hy, hxy⟩

/-- C3: every clusterer step — assignment to an existing cluster as well as
creation of a new one — preserves the invariant that each cluster's centroid
is the mean of the circumcenters of the segments in its member list. -/
theorem claim3_centroid_mean (segs : List Segment) (D : ℝ) (st : ClState)
    (idx : ℕ) (seg : Segment) (hseg : segs[idx]? = some seg)
    (hinv : centroidInv segs st) :
    centroidInv segs (clusterStep segs D st idx seg) := by
  cases hc : seg.centro with
  | none => rw [clusterStep_none segs D st idx seg hc]; exact hinv
  | some pt =>
    cases hf : findCluster D pt st.clusters with
    | some cid =>
      rw [clusterStep_assign segs D st idx seg pt cid hc hf]
      intro cl hcl
      rcases mem_modifyAt _ cid st.clusters cl hcl with hmem | ⟨y, hy, hcly⟩
      · exact hinv cl hmem
      · subst hcly
        obtain ⟨hne, hmembers, hx, hy'⟩ := hinv y hy
        refine ⟨by simp [updateCluster], ?_, ?_, ?_⟩
        · intro k hk
          simp only [updateCluster, List.mem_append, List.mem_singleton] at hk
          rcases hk with hk | hk
          · exact hmembers k hk
          · subst hk
            exact ⟨seg, hseg, by rw [hc]; simp⟩
        · simp [updateCluster]
        · simp [updateCluster]
    | none =>
      rw [clusterStep_new segs D st idx seg pt hc hf]
      intro cl hcl
      rcases List.mem_append.mp hcl with hmem | hnew
      · exact hinv cl hmem
      · rw [List.mem_singleton] at hnew
        subst hnew
        refine ⟨by simp, ?_, ?_, ?_⟩
        · intro k hk
          rw [List.mem_singleton] at hk
          subst hk
          exact ⟨seg, hseg, by rw [hc]; simp⟩
        · simp [centroOf, hseg, hc]
        · simp [centroOf, hseg, hc]

/-- C3 witness: stepping the empty state with a one-segment list preserves
the centroid-mean invariant. -/
theorem claim3_witness :
    centroidInv [⟨[], 1, 2, some ⟨1, 2⟩⟩]
      (clusterStep [⟨[], 1, 2, some ⟨1, 2⟩⟩] 10 ⟨[], []⟩ 0 ⟨[], 1, 2, some ⟨1, 2⟩⟩) :=
  claim3_centroid_mean [⟨[], 1, 2, some ⟨1, 2⟩⟩] 10 ⟨[], []⟩ 0 _ (by simp)
    (fun cl hcl => absurd hcl (List.not_mem_nil cl))

lemma dictGet_eq_none : ∀ (m : List (ℕ × ℕ)) (k : ℕ),
    (∀ e ∈ m, e.1 ≠ k) → dictGet m k = none
  | [], _ => fun _ => rfl
  | e :: rest, k => by
    intro h
    unfold dictGet
    rw [dictGet_eq_none rest k (fun e' he' => h e' (List.mem_cons_of_mem e he'))]
    simp [h e (List.mem_cons_self e rest)]

lemma curveRecords_length (mapa : List (ℕ × ℕ)) :
    ∀ (segs : List Segment) (n : ℕ), (curveRecords mapa n segs).length = segs.length
  | [], _ => rfl
  | seg :: rest, n => by
    simp only [curveRecords, List.length_cons]
    rw [curveRecords_length mapa rest (n + 1)]

lemma curveRecords_getElem? (mapa : List (ℕ × ℕ)) :
    ∀ (segs : List Segment) (n k : ℕ),
      (curveRecords mapa n segs)[k]? = (segs[k]?).map (curveRec mapa (n + k))
  | [], n, k => by simp [curveRecords]
  | seg :: rest, n, 0 => by simp [curveRecords]
  | seg :: rest, n, k + 1 => by
    simp only [curveRecords, List.getElem?_cons_succ]
    rw [curveRecords_getElem? mapa rest (n + 1) k,
      show n + (k + 1) = n + 1 + k from by omega]

lemma clusterStep_mapa_cases (segs : List Segment) (D : ℝ) (st : ClState)
    (idx : ℕ) (seg : Segment) :
    (clusterStep segs D st idx seg).mapa = st.mapa ∧ seg.centro = none ∨
    (∃ c, (clusterStep segs D st idx seg).mapa = st.mapa ++ [(idx, c)]) ∧
      seg.centro ≠ none := by
  cases hc : seg.centro with
  | none =>
    left
    exact ⟨by rw [clusterStep_none segs D st idx seg hc], rfl⟩
  | some pt =>
    right
    refine ⟨?_, by simp⟩
    cases hf : findCluster D pt st.clusters with
    | some cid =>
      exact ⟨cid, by rw [clusterStep_assign segs D st idx seg pt cid hc hf]⟩
    | none =>
      exact ⟨st.clusters.length, by rw [clusterStep_new segs D st idx seg pt hc hf]⟩

lemma clusterLoop_mapa_inv (segs : List Segment) (D : ℝ) :
    ∀ (rest : List Segment) (n : ℕ) (st : ClState),
      (∀ (k : ℕ) (s : Segment), rest[k]? = some s → segs[n + k]? = some s) →
      mapaInv segs n st →
      (∀ i, (st.mapa.countP fun e => decide (e.1 = i)) ≤ 1) →
      mapaInv segs (n + rest.length) (clusterLoop segs D st n rest) ∧
      (∀ i, ((clusterLoop segs D st n rest).mapa.countP
        fun e => decide (e.1 = i)) ≤ 1)
  | [], n, st => by
    intro _ hinv hcnt
    exact ⟨by simpa [clusterLoop] using hinv, by simpa [clusterLoop] using hcnt⟩
  | s :: rest, n, st => by
    intro hks hinv hcnt
    have hsn : segs[n]? = some s := by
      have h0 := hks 0 s (by simp)
      simpa using h0
    have hstep : mapaInv segs (n + 1) (clusterStep segs D st n s) ∧
        (∀ i, ((clusterStep segs D st n s).mapa.countP
          fun e => decide (e.1 = i)) ≤ 1) := by
      rcases clusterStep_mapa_cases segs D st n s with ⟨heq, -⟩ | ⟨⟨c, heq⟩, hcent⟩
      · constructor
        · intro e he
          rw [heq] at he
          obtain ⟨h1, h2⟩ := hinv e he
          exact ⟨Nat.lt_succ_of_lt h1, h2⟩
        · intro i
          rw [heq]
          exact hcnt i
      · constructor
        · intro e he
          rw [heq] at he
          rcases List.mem_append.mp he with he | he
          · obtain ⟨h1, h2⟩ := hinv e he
            exact ⟨Nat.lt_succ_of_lt h1, h2⟩
          · rw [List.mem_singleton] at he
            subst he
            exact ⟨Nat.lt_succ_self n, s, hsn, hcent⟩
        · intro i
          rw [heq, List.countP_append]
          by_cases hi : i = n
          · subst hi
            have hz : (st.mapa.countP fun e => decide (e.1 = i)) = 0 := by
              rw [List.countP_eq_zero]
              intro e he
              have := (hinv e he).1
              simp only [decide_eq_true_eq]
              omega
            rw [hz]
            simp
          · have hz : (([(n, c)] : List (ℕ × ℕ)).countP
                fun e => decide (e.1 = i)) = 0 := by
              rw [List.countP_eq_zero]
              intro e he
              rw [List.mem_singleton] at he
              subst he
              simp only [decide_eq_true_eq]
              omega
            rw [hz]
            simpa using hcnt i
    have hrec := clusterLoop_mapa_inv segs D rest (n + 1) (clusterStep segs D st n s)
      (fun k s' hk => by
        have hx := hks (k + 1) s' (by simpa using hk)
        simpa [show n + (k + 1) = n + 1 + k from by omega] using hx)
      hstep.1 hstep.2
    constructor
    · have hx := hrec.1
      simpa [clusterLoop, show n + 1 + rest.length = n + (rest.length + 1)
        from by omega] using hx
    · have hx := hrec.2
      simpa [clusterLoop] using hx

/-- C9: every segment is written to `mapa_cluster` at most once; every
segment yields exactly one curve record; and a segment with no circumcenter
(clustering disabled, or no in-range write) is still emitted, with
`ID_Centroide = -1`. -/
theorem claim9_curve_records (ctr : Bool) (D : ℝ) (segs : List Segment) :
    (∀ i, ((runClustering ctr D segs).mapa.countP
      fun e => decide (e.1 = i)) ≤ 1) ∧
    (curveRecords (runClustering ctr D segs).mapa 0 segs).length = segs.length ∧
    (∀ (idx : ℕ) (seg : Segment), segs[idx]? = some seg → seg.centro = none →
      (curveRecords (runClustering ctr D segs).mapa 0 segs)[idx]? =
        some ⟨idx, -1, seg.radio, seg.long⟩) := by
  have hmain : mapaInv segs segs.length (runClustering ctr D segs) ∧
      (∀ i, ((runClustering ctr D segs).mapa.countP
        fun e => decide (e.1 = i)) ≤ 1) := by
    cases ctr with
    | false =>
      constructor
      · intro e he
        simp [runClustering] at he
      · intro i
        simp [runClustering]
    | true =>
      have h := clusterLoop_mapa_inv segs D segs 0 ⟨[], []⟩
        (fun k s hk => by simpa using hk)
        (fun e he => absurd he (List.not_mem_nil e))
        (fun i => by simp)
      exact ⟨by simpa [runClustering] using h.1, by simpa [runClustering] using h.2⟩
  refine ⟨hmain.2, curveRecords_length _ segs 0, ?_⟩
  intro idx seg hidx hcent
  have hnone : dictGet (runClustering ctr D segs).mapa idx = none := by
    apply dictGet_eq_none
    intro e he hek
    obtain ⟨-, s, hs, hcs⟩ := hmain.1 e he
    rw [hek, hidx] at hs
    injection hs with hs
    subst hs
    exact hcs hcent
  rw [curveRecords_getElem? _ segs 0 idx, hidx]
  simp [curveRec, hnone]

/-- C9 witness: a single center-less segment still produces its curve record
with `ID_Centroide = -1` even though clustering is enabled. -/
theorem claim9_witness :
    (curveRecords (runClustering true 10 [⟨[], 3, 4, none⟩]).mapa 0
        [⟨[], 3, 4, none⟩])[0]? = some ⟨0, -1, 3, 4⟩ :=
  (claim9_curve_records true 10 [⟨[], 3, 4, none⟩]).2.2 0 ⟨[], 3, 4, none⟩
    (by simp) rfl

end RadiosCurva
